import Mathlib

/-!
Verification of the scan-orchestration and resource-aggregation core of
`src/Machine.c` (htop fork).  The embedding models:

* `Machine_populateAccForProcess` — the memoized recursive accumulation of
  `m_resident` over the parent/child relation of the process table
  (lines 98–115 of `Machine.c`);
* `Machine_populateAccumulatedFields` — the per-cycle pass: initialize all
  `m_accResident` to `-1`, run the recursion from every row, then overwrite
  `m_resident` with `m_accResident` (lines 117–135);
* `Machine_scanTables` — the scan entry point: clock bookkeeping with the
  `assert(monotonicMs > prevMonotonicMs)` modeled as an `Option` failure,
  the three-phase refresh of every registered table, the accumulation pass
  and the publication of the per-cycle maximum user id (lines 137–170);
* `Machine_addTable` / `Machine_populateTablesFromSettings` — table
  registration (lines 63–90).

Rows are modeled by their three fields that the core reads or writes:
`id`, `parent` (both `Row` fields in C) and `resident` (`m_resident` of
`Process`).  The mutable per-row `m_accResident` fields are modeled as a
list of `Int` parallel to the row list; `-1` is the "uncomputed" sentinel,
exactly as in the C code.  The C recursion has no fuel; here the recursion
carries a fuel argument (needed because on malformed inputs with negative
raw values the C recursion genuinely diverges), and fuel `n + 1` is proved
sufficient for the actual entry points.
-/

/-- Model of a row of the process table: `Row.id`, `Row.parent` and the
`Process.m_resident` raw value.  C `pid_t`/`long` are modeled as `Int`. -/
structure PRow where
  id : Int
  parent : Int
  resident : Int
deriving DecidableEq, Repr

/-- Default row used for out-of-range `getD` reads (never reached by the
entry points, which only index within bounds, like the C code). -/
def dRow : PRow := ⟨0, 0, 0⟩

/-- The `id` field of row number `i`. -/
def rowId (rows : List PRow) (i : Nat) : Int := (rows.getD i dRow).id

/-- The `parent` field of row number `i`. -/
def rowParent (rows : List PRow) (i : Nat) : Int := (rows.getD i dRow).parent

/-- The `m_resident` raw value of row number `i`. -/
def rowRes (rows : List PRow) (i : Nat) : Int := (rows.getD i dRow).resident

/-- The inner `for (int i = 0; i < n; i++)` loop of
`Machine_populateAccForProcess`: iterate over the row indices `pending`,
skip `i == cur` (the `continue`), and for every row whose `parent` equals
`rid` (the id of row `cur`) run the recursive call `rec` and add its result
to the accumulator slot of `cur` (`process->m_accResident += ...`).  The
slot of `cur` is re-read after the recursive call, exactly as the C
read-modify-write `+=` does. -/
def accLoopG (rows : List PRow) (cur : Nat) (rid : Int)
    (rec : Nat → List Int → List Int × Int) : List Nat → List Int → List Int
  | [], acc => acc
  | i :: rest, acc =>
    if i = cur then
      accLoopG rows cur rid rec rest acc
    else if (rows.getD i dRow).parent = rid then
      let r := rec i acc
      accLoopG rows cur rid rec rest (r.1.set cur (r.1.getD cur (-1) + r.2))
    else
      accLoopG rows cur rid rec rest acc

/-- Model of `Machine_populateAccForProcess(rows, n, cur)` from `Machine.c`:
if `m_accResident != -1` return it (memoization); otherwise set it to
`m_resident`, loop over all rows adding the recursive accumulation of every
child (row whose `parent` equals this row's `id`), and return the final
`m_accResident`.  The first argument is the fuel bounding the recursion
depth; the C code has none and relies on the memoization for termination. -/
def Machine_populateAccForProcess (rows : List PRow) : Nat → Nat → List Int → List Int × Int
  | 0, _, acc => (acc, 0)
  | fuel + 1, cur, acc =>
    let a := acc.getD cur (-1)
    if a ≠ -1 then
      (acc, a)
    else
      let row := rows.getD cur dRow
      let acc1 := acc.set cur row.resident
      let acc2 := accLoopG rows cur row.id
        (fun i ac => Machine_populateAccForProcess rows fuel i ac)
        (List.range rows.length) acc1
      (acc2, acc2.getD cur (-1))

/-- The two first loops of `Machine_populateAccumulatedFields`: set every
`m_accResident` to `-1`, then call `Machine_populateAccForProcess` on every
row index, with a given fuel for each call. -/
def accumulatedValuesFuel (rows : List PRow) (fuel : Nat) : List Int :=
  (List.range rows.length).foldl
    (fun acc i => (Machine_populateAccForProcess rows fuel i acc).1)
    (List.replicate rows.length (-1))

/-- The accumulated `m_accResident` values produced by one pass of
`Machine_populateAccumulatedFields`, with the fuel `n + 1` that is proved
sufficient (`claim2_termination_nonneg`). -/
def accumulatedValues (rows : List PRow) : List Int :=
  accumulatedValuesFuel rows (rows.length + 1)

/-- Model of `Machine_populateAccumulatedFields` from `Machine.c`: initialize the
accumulators, run the recursion from every row, then overwrite every row's
`m_resident` with its `m_accResident` (the FIXME "hack to temporary display
accumulated rss"). -/
def Machine_populateAccumulatedFields (rows : List PRow) : List PRow :=
  List.zipWith (fun r a => { r with resident := a }) rows (accumulatedValues rows)

/-- Indices of the children of row `i`: the rows whose `parent` field equals
row `i`'s `id` (the row-set reading of the spec's `children(row)`). -/
def childrenOf (rows : List PRow) (i : Nat) : List Nat :=
  (List.range rows.length).filter (fun j => rowParent rows j = rowId rows i)

/-- A row is a forest root when no row's `id` matches its `parent` field
(this includes dangling parent references). -/
def isRootB (rows : List PRow) (j : Nat) : Bool :=
  (List.range rows.length).all (fun i => rowId rows i != rowParent rows j)

/-- Reference accumulation, following the spec's words: `accumulated(row) =
rawValue(row) + Σ accumulated(child)`, unfolded `h` levels deep. -/
def accSpecAux (rows : List PRow) : Nat → Nat → Int
  | 0, i => rowRes rows i
  | h + 1, i => rowRes rows i + ((childrenOf rows i).map (accSpecAux rows h)).sum

/-- Reference accumulated value of row `i`, for a parent graph that is
acyclic as exhibited by the height function `hgt` (children have smaller
height): unfolding `hgt i + 1` levels is exact. -/
def accSpec (rows : List PRow) (hgt : Nat → Nat) (i : Nat) : Int :=
  accSpecAux rows (hgt i + 1) i

/-- Cost-instrumented inner loop of `Machine_populateAccForProcess`: same
state evolution as `accLoopG`, plus a count of loop iterations (the unit of
work of the algorithm; the body outside recursive calls is O(1)). -/
def accLoopGCost (rows : List PRow) (cur : Nat) (rid : Int)
    (rec : Nat → List Int → List Int × Int × Nat) : List Nat → List Int → List Int × Nat
  | [], acc => (acc, 0)
  | i :: rest, acc =>
    if i = cur then
      let r := accLoopGCost rows cur rid rec rest acc
      (r.1, r.2 + 1)
    else if (rows.getD i dRow).parent = rid then
      let c := rec i acc
      let r := accLoopGCost rows cur rid rec rest (c.1.set cur (c.1.getD cur (-1) + c.2.1))
      (r.1, c.2.2 + r.2 + 1)
    else
      let r := accLoopGCost rows cur rid rec rest acc
      (r.1, r.2 + 1)

/-- Cost-instrumented `Machine_populateAccForProcess`: returns the new
accumulator state, the returned value, and the number of inner-loop
iterations performed (including those of recursive calls). -/
def accForProcessCost (rows : List PRow) : Nat → Nat → List Int → List Int × Int × Nat
  | 0, _, acc => (acc, 0, 0)
  | fuel + 1, cur, acc =>
    let a := acc.getD cur (-1)
    if a ≠ -1 then
      (acc, a, 0)
    else
      let row := rows.getD cur dRow
      let acc1 := acc.set cur row.resident
      let r := accLoopGCost rows cur row.id
        (fun i ac => accForProcessCost rows fuel i ac)
        (List.range rows.length) acc1
      (r.1, r.1.getD cur (-1), r.2)

/-- Total number of inner-loop iterations performed by one accumulation
pass of `Machine_populateAccumulatedFields`. -/
def accumulatedCost (rows : List PRow) : Nat :=
  ((List.range rows.length).foldl
    (fun s i =>
      let r := accForProcessCost rows (rows.length + 1) i s.1
      (r.1, s.2 + r.2.2))
    (List.replicate rows.length (-1), 0)).2

/-- Number of parent edges: pairs `(i, j)` with `rows[j].parent = rows[i].id`. -/
def rowEdgeCount (rows : List PRow) : Nat :=
  ((List.range rows.length).map
    (fun j => ((List.range rows.length).filter
      (fun i => rowId rows i = rowParent rows j)).length)).sum

/-- The complexity claim of the spec, formalized on the iteration-count cost
model: some constant `c` bounds the work of the accumulation pass by
`c * (n + e + 1)` on every row set. -/
def accumulationIsLinear : Prop :=
  ∃ c : Nat, ∀ rows : List PRow,
    accumulatedCost rows ≤ c * (rows.length + rowEdgeCount rows + 1)

/-- Family of row sets with no parent edges: `n` rows, ids `1..n`, all
parent references dangling (`0` matches no id), zero raw values. -/
def flatRows (n : Nat) : List PRow :=
  (List.range n).map (fun k : Nat => ⟨(k : Int) + 1, 0, 0⟩)

/-- State of the `Machine` fields driven by `Machine_scanTables`, plus the
function-local `static bool firstScanDone`.  Registered tables are opaque
to the core (their three hooks only mutate external OS-derived state), so
only their number is kept; the process table rows are the primary table. -/
structure MachineState where
  firstScanDone : Bool
  prevMonotonicMs : Int
  monotonicMs : Int
  maxUserId : Int
  tableCount : Nat
  processRows : List PRow
deriving DecidableEq, Repr

/-- Default machine: the state right after `Machine_init` (first scan not
yet done). -/
def dM : MachineState := ⟨false, 0, 0, 0, 0, []⟩

/-- Observable steps of one call to `Machine_scanTables`, in program
order. -/
inductive ScanEvent where
  | advanceClock
  | resetMaxUserId
  | scanPrepare (i : Nat)
  | scanIterate (i : Nat)
  | scanCleanup (i : Nat)
  | accumulate
  | publishMaxUserId
deriving DecidableEq, Repr

/-- Model of `Machine_scanTables` from `Machine.c`.  `m` is the value that
`Platform_gettime_monotonic` would deliver this cycle (only read on
non-first cycles, as in the C code).  The
`assert(this->monotonicMs > this->prevMonotonicMs)` is modeled by
returning `none` (abort) when it fails.  On success the result is the new
machine state and the trace of the performed steps: advance clock, reset
`maxUserId`, then `Table_scanPrepare` / `Table_scanIterate` /
`Table_scanCleanup` for each registered table in order, then
`Machine_populateAccumulatedFields`, then `Row_setUidColumnWidth`. -/
def Machine_scanTables (s : MachineState) (m : Int) :
    Option (MachineState × List ScanEvent) :=
  let prev := if s.firstScanDone then s.monotonicMs else 0
  let cur := if s.firstScanDone then m else 1
  if prev < cur then
    some ({ firstScanDone := true, prevMonotonicMs := prev, monotonicMs := cur,
            maxUserId := 0, tableCount := s.tableCount,
            processRows := Machine_populateAccumulatedFields s.processRows },
      [ScanEvent.advanceClock, ScanEvent.resetMaxUserId]
        ++ (List.range s.tableCount).foldl
             (fun es i => es ++ [ScanEvent.scanPrepare i, ScanEvent.scanIterate i,
                                 ScanEvent.scanCleanup i]) []
        ++ [ScanEvent.accumulate, ScanEvent.publishMaxUserId])
  else
    none

/-- Run a sequence of scan cycles with the given monotonic-clock readings,
collecting the machine state after each cycle; `none` if any cycle hits the
clock-regression assertion. -/
def scanStates (s : MachineState) : List Int → Option (List MachineState)
  | [] => some []
  | m :: ms =>
    match Machine_scanTables s m with
    | none => none
    | some (s1, _) =>
      match scanStates s1 ms with
      | none => none
      | some l => some (s1 :: l)

/-- Model of `Machine_addTable` from `Machine.c`: append the table unless the same
table (by identity, modeled as a `Nat` key) was already registered. -/
def Machine_addTable (tables : List Nat) (t : Nat) : List Nat :=
  if t ∈ tables then tables else tables ++ [t]

/-- Loop body of `Machine_populateTablesFromSettings`: for screen number
`i`, resolve its table (`processTable` when the screen has none), make the
first screen's table the active table, and register it. -/
def populateTablesAux (proc : Nat) :
    Nat → List (Option Nat) → List Nat → Option Nat → List Nat × Option Nat
  | _, [], ts, act => (ts, act)
  | i, o :: rest, ts, act =>
    let t := o.getD proc
    populateTablesAux proc (i + 1) rest (Machine_addTable ts t)
      (if i = 0 then some t else act)

/-- Model of `Machine_populateTablesFromSettings` from `Machine.c`, restricted to its
registration effect: returns the registry and the active table. -/
def Machine_populateTablesFromSettings (proc : Nat) (screens : List (Option Nat)) :
    List Nat × Option Nat :=
  populateTablesAux proc 0 screens [] none

/-- Number of accumulator slots still holding the `-1` sentinel; the
recursion's termination measure (each non-memoized entry clears one slot
for good, given non-negative raw values). -/
def countNeg (acc : List Int) : Nat :=
  ((Finset.range acc.length).filter (fun k => acc.getD k (-1) = -1)).card

/-- Every accumulator slot is either the `-1` sentinel or a non-negative
value. -/
def nnInv (n : Nat) (acc : List Int) : Prop :=
  ∀ k, k < n → acc.getD k (-1) = -1 ∨ 0 ≤ acc.getD k (-1)

/-- Postcondition of one complete `Machine_populateAccForProcess` call on a
well-formed state: the length is unchanged, the slot invariant holds, the
returned value is the (non-negative) final slot of `cur`, slots already
computed are untouched, and the number of sentinel slots does not grow. -/
def accPost (rows : List PRow) (cur : Nat) (acc : List Int)
    (r : List Int × Int) : Prop :=
  r.1.length = acc.length ∧
  nnInv rows.length r.1 ∧
  0 ≤ r.2 ∧
  r.2 = r.1.getD cur (-1) ∧
  (∀ k, k < rows.length → acc.getD k (-1) ≠ -1 → r.1.getD k (-1) = acc.getD k (-1)) ∧
  countNeg r.1 ≤ countNeg acc

/-- Statement that `Machine_populateAccForProcess` with fuel `f` satisfies `accPost` on
every well-formed input whose sentinel count is below `f`. -/
def sim2Main (rows : List PRow) (f : Nat) : Prop :=
  ∀ (cur : Nat) (acc : List Int), cur < rows.length → acc.length = rows.length →
    countNeg acc < f → nnInv rows.length acc →
    accPost rows cur acc (Machine_populateAccForProcess rows f cur acc)

/-- Statement that `Machine_populateAccForProcess` with fuel `f1` agrees with every other
sufficient fuel: the fuel is an artifact of the embedding, not of the
algorithm. -/
def fuelIndStmt (rows : List PRow) (f1 : Nat) : Prop :=
  ∀ (f2 cur : Nat) (acc : List Int), cur < rows.length → acc.length = rows.length →
    countNeg acc < f1 → countNeg acc < f2 → nnInv rows.length acc →
    Machine_populateAccForProcess rows f1 cur acc
      = Machine_populateAccForProcess rows f2 cur acc

/-- Sum of the reference accumulated values of the children of `cur`
(rows whose `parent` equals `rid`, excluding `cur` itself, as the loop's
`continue` does) among the still-pending loop indices. -/
def childSumOver (rows : List PRow) (hgt : Nat → Nat) (cur : Nat) (rid : Int)
    (pending : List Nat) : Int :=
  ((pending.filter (fun j => ¬j = cur ∧ (rows.getD j dRow).parent = rid)).map
    (accSpec rows hgt)).sum

/-- Postcondition of one complete `Machine_populateAccForProcess` call on an
acyclic parent graph (acyclicity exhibited by the height function `hgt`):
the call returns the reference accumulated value of `cur` and stores it,
touches no row of height at least `hgt cur` other than `cur`, keeps every
lower row at the sentinel or its reference value, and never changes a slot
already off the sentinel. -/
def simPost (rows : List PRow) (hgt : Nat → Nat) (cur : Nat) (acc : List Int)
    (r : List Int × Int) : Prop :=
  r.1.length = acc.length ∧
  r.2 = accSpec rows hgt cur ∧
  r.1.getD cur (-1) = accSpec rows hgt cur ∧
  (∀ k, k < rows.length → k ≠ cur → hgt cur ≤ hgt k →
    r.1.getD k (-1) = acc.getD k (-1)) ∧
  (∀ k, k < rows.length → hgt k < hgt cur →
    r.1.getD k (-1) = -1 ∨ r.1.getD k (-1) = accSpec rows hgt k) ∧
  (∀ k, k < rows.length → acc.getD k (-1) ≠ -1 →
    r.1.getD k (-1) = acc.getD k (-1))

/-- Statement that `Machine_populateAccForProcess` with fuel `f` meets `simPost` whenever
`f` exceeds the height of the start row and the state is consistent below
that height. -/
def simMain (rows : List PRow) (hgt : Nat → Nat) (f : Nat) : Prop :=
  ∀ (cur : Nat) (acc : List Int), cur < rows.length → acc.length = rows.length →
    hgt cur < f →
    (acc.getD cur (-1) = -1 ∨ acc.getD cur (-1) = accSpec rows hgt cur) →
    (∀ k, k < rows.length → hgt k < hgt cur →
      acc.getD k (-1) = -1 ∨ acc.getD k (-1) = accSpec rows hgt k) →
    simPost rows hgt cur acc (Machine_populateAccForProcess rows f cur acc)

/-- Spec §8 end-to-end scenario rows (with `parent = 0` as the none
sentinel, matching ids that start at 1). -/
def test4 : List PRow := [⟨1, 0, 100⟩, ⟨2, 1, 50⟩, ⟨3, 1, 25⟩, ⟨4, 2, 10⟩]

/-- Height function exhibiting the acyclicity of `test4`'s parent graph. -/
def hgtTest4 : Nat → Nat := fun i => [3, 2, 1, 1].getD i 0

/-- Three rows where an in-progress row (`id 1`, child of `id 2`) already
accumulated one child (`id 3`) before its parent `id 2` reads it back
through the cycle. -/
def cyc3 : List PRow := [⟨1, 2, 100⟩, ⟨3, 1, 10⟩, ⟨2, 1, 50⟩]

/-- The minimal mutual cycle of the spec's cycle-safety scenario. -/
def mutualCycleRows (ra rb : Int) : List PRow := [⟨1, 2, ra⟩, ⟨2, 1, rb⟩]

/-- A parent with one child: the smallest input on which the
`m_resident := m_accResident` overwrite changes a later pass. -/
def idem4 : List PRow := [⟨1, 0, 100⟩, ⟨2, 1, 50⟩]

example : accumulatedValues test4 = [185, 60, 25, 10] := by decide

example : accumulatedValues [⟨1, 99, 5⟩] = [5] := by decide

example : accumulatedValues cyc3 = [270, 10, 160] := by decide

example : accumulatedValues idem4 = [150, 50] := by decide

example : accumulatedValues (Machine_populateAccumulatedFields idem4) = [200, 50] := by decide

example : accumulatedCost (flatRows 3) = 9 := by decide

example : scanStates dM [5, 9] =
    some [⟨true, 0, 1, 0, 0, []⟩, ⟨true, 1, 9, 0, 0, []⟩] := by decide

lemma getD_set_self (l : List Int) (i : Nat) (v : Int) (h : i < l.length) :
    (l.set i v).getD i (-1) = v := by
  simp [List.getD_eq_getElem?_getD, List.getElem?_set_self h]

lemma getD_set_ne (l : List Int) {i j : Nat} (v : Int) (h : i ≠ j) :
    (l.set i v).getD j (-1) = l.getD j (-1) := by
  simp [List.getD_eq_getElem?_getD, List.getElem?_set_ne h]

lemma getD_replicate_neg (n i : Nat) (h : i < n) :
    (List.replicate n (-1 : Int)).getD i (-1) = -1 := by
  simp [List.getD_eq_getElem?_getD, List.getElem?_replicate, h]

lemma accLoopG_length (rows : List PRow) (cur : Nat) (rid : Int)
    (rec : Nat → List Int → List Int × Int)
    (hrec : ∀ i ac, ((rec i ac).1).length = ac.length) :
    ∀ (pending : List Nat) (acc : List Int),
      (accLoopG rows cur rid rec pending acc).length = acc.length := by
  intro pending
  induction pending with
  | nil => intro acc; rfl
  | cons i rest ih =>
    intro acc
    simp only [accLoopG]
    split
    · exact ih acc
    · split
      · rw [ih]
        rw [List.length_set, hrec]
      · exact ih acc

lemma accFor_length (rows : List PRow) :
    ∀ (fuel cur : Nat) (acc : List Int),
      ((Machine_populateAccForProcess rows fuel cur acc).1).length = acc.length := by
  intro fuel
  induction fuel with
  | zero => intro cur acc; rfl
  | succ f ih =>
    intro cur acc
    simp only [Machine_populateAccForProcess]
    split
    · rfl
    · simp only
      rw [accLoopG_length rows cur _ _ (fun i ac => ih i ac), List.length_set]

lemma accumulatedValuesFuel_length (rows : List PRow) (fuel : Nat) :
    (accumulatedValuesFuel rows fuel).length = rows.length := by
  unfold accumulatedValuesFuel
  have h : ∀ (l : List Nat) (acc : List Int),
      (l.foldl (fun acc i => (Machine_populateAccForProcess rows fuel i acc).1) acc).length
        = acc.length := by
    intro l
    induction l with
    | nil => intro acc; rfl
    | cons j rest ih => intro acc; rw [List.foldl_cons, ih, accFor_length]
  rw [h, List.length_replicate]

lemma accumulatedValues_length (rows : List PRow) :
    (accumulatedValues rows).length = rows.length :=
  accumulatedValuesFuel_length rows (rows.length + 1)

lemma zipWith_resident_eq :
    ∀ (l1 : List PRow) (l2 : List Int), l1.length = l2.length →
      (List.zipWith (fun r a => { r with resident := a }) l1 l2).map
        (fun r => r.resident) = l2 := by
  intro l1
  induction l1 with
  | nil =>
    intro l2 h
    cases l2 with
    | nil => rfl
    | cons b t => simp at h
  | cons a t ih =>
    intro l2 h
    cases l2 with
    | nil => simp at h
    | cons b t2 =>
      simp only [List.zipWith_cons_cons, List.map_cons]
      rw [ih t2 (by simpa using h)]

lemma zipWith_id_eq :
    ∀ (l1 : List PRow) (l2 : List Int), l1.length = l2.length →
      (List.zipWith (fun r a => { r with resident := a }) l1 l2).map
        (fun r => r.id) = l1.map (fun r => r.id) := by
  intro l1
  induction l1 with
  | nil => intro l2 _; rfl
  | cons a t ih =>
    intro l2 h
    cases l2 with
    | nil => simp at h
    | cons b t2 =>
      simp only [List.zipWith_cons_cons, List.map_cons]
      rw [ih t2 (by simpa using h)]

lemma zipWith_parent_eq :
    ∀ (l1 : List PRow) (l2 : List Int), l1.length = l2.length →
      (List.zipWith (fun r a => { r with resident := a }) l1 l2).map
        (fun r => r.parent) = l1.map (fun r => r.parent) := by
  intro l1
  induction l1 with
  | nil => intro l2 _; rfl
  | cons a t ih =>
    intro l2 h
    cases l2 with
    | nil => simp at h
    | cons b t2 =>
      simp only [List.zipWith_cons_cons, List.map_cons]
      rw [ih t2 (by simpa using h)]

/-- C10: after the accumulation pass of a scan cycle completes, every row's
raw resource value (`m_resident`) has been overwritten with its accumulated
value, so the raw values seen by a subsequent pass are this pass's
accumulated values, not the last ingested ones; ids and parent links are
unchanged. -/
theorem claim10_resident_overwrite (rows : List PRow) :
    (Machine_populateAccumulatedFields rows).map (fun r => r.resident)
        = accumulatedValues rows ∧
    (Machine_populateAccumulatedFields rows).map (fun r => r.id)
        = rows.map (fun r => r.id) ∧
    (Machine_populateAccumulatedFields rows).map (fun r => r.parent)
        = rows.map (fun r => r.parent) ∧
    (Machine_populateAccumulatedFields rows).length = rows.length := by
  have hl : rows.length = (accumulatedValues rows).length :=
    (accumulatedValues_length rows).symm
  refine ⟨zipWith_resident_eq rows _ hl, zipWith_id_eq rows _ hl,
    zipWith_parent_eq rows _ hl, ?_⟩
  unfold Machine_populateAccumulatedFields
  rw [List.length_zipWith, ← hl, min_self]

/-- C4 (failing input): the accumulation pass is not idempotent on the code
as written — the `m_resident := m_accResident` overwrite (flagged FIXME as
a temporary hack) makes a second pass over the same static row set read the
first pass's accumulated values as raw values, so any row with a child of
nonzero accumulated value changes. -/
theorem claim4_idempotence_failure :
    accumulatedValues idem4 = [150, 50] ∧
    accumulatedValues (Machine_populateAccumulatedFields idem4) = [200, 50] ∧
    Machine_populateAccumulatedFields (Machine_populateAccumulatedFields idem4)
      ≠ Machine_populateAccumulatedFields idem4 := by
  decide

/-- C3 (counterexample): in `cyc3` the in-progress child `id 1` is read back
by its parent `id 2` after it already accumulated its child `id 3`, so its
contribution is its partial sum `100 + 10 = 110`, not its raw value `100`
only; the claim predicts `accumulated(id 2) = 50 + 100 = 150`, but the code
yields `160`. -/
theorem claim3_counterexample :
    accumulatedValues cyc3 = [270, 10, 160] ∧
    (accumulatedValues cyc3).getD 2 (-1) ≠ rowRes cyc3 2 + rowRes cyc3 0 := by
  decide

/-- C6: on a non-first scan cycle, `Machine_scanTables` hits the
`assert(monotonicMs > prevMonotonicMs)` and aborts exactly when the fresh
monotonic reading is not strictly greater than the previous cycle's
logical time; under the clock-source assumption the assertion is
unreachable. -/
theorem claim6_clock_regression_assert (s : MachineState) (m : Int)
    (hdone : s.firstScanDone = true) :
    Machine_scanTables s m = none ↔ m ≤ s.monotonicMs := by
  simp only [Machine_scanTables, hdone, if_true]
  split_ifs with h
  · simp
    omega
  · simp
    omega

theorem claim6_witness :
    Machine_scanTables ⟨true, 1, 5, 0, 0, []⟩ 3 = none ↔ (3 : Int) ≤ 5 :=
  claim6_clock_regression_assert ⟨true, 1, 5, 0, 0, []⟩ 3 rfl

lemma scanTrace_foldl_eq (n : Nat) :
    (List.range n).foldl
        (fun es i => es ++ [ScanEvent.scanPrepare i, ScanEvent.scanIterate i,
                            ScanEvent.scanCleanup i]) []
      = (List.range n).flatMap
          (fun i => [ScanEvent.scanPrepare i, ScanEvent.scanIterate i,
                     ScanEvent.scanCleanup i]) := by
  have h : ∀ (l : List Nat) (es : List ScanEvent),
      l.foldl (fun es i => es ++ [ScanEvent.scanPrepare i, ScanEvent.scanIterate i,
        ScanEvent.scanCleanup i]) es
        = es ++ l.flatMap (fun i => [ScanEvent.scanPrepare i, ScanEvent.scanIterate i,
            ScanEvent.scanCleanup i]) := by
    intro l
    induction l with
    | nil => intro es; simp
    | cons a t ih => intro es; simp [ih]
  simpa using h (List.range n) []

/-- C7: each successful call to the scan entry point performs, in order:
advance the logical clock, reset the running maximum user id, then for
every registered table in registration order `Table_scanPrepare`,
`Table_scanIterate` (the ingest) and `Table_scanCleanup` — all three before
the next table — then the tree accumulation over the primary table's rows,
and finally the publication of the maximum user id
(`Row_setUidColumnWidth`). -/
theorem claim7_scan_order (s : MachineState) (m : Int) (s1 : MachineState)
    (tr : List ScanEvent) (hrun : Machine_scanTables s m = some (s1, tr)) :
    tr = [ScanEvent.advanceClock, ScanEvent.resetMaxUserId]
        ++ (List.range s.tableCount).flatMap
             (fun i => [ScanEvent.scanPrepare i, ScanEvent.scanIterate i,
                        ScanEvent.scanCleanup i])
        ++ [ScanEvent.accumulate, ScanEvent.publishMaxUserId] ∧
    s1.maxUserId = 0 ∧
    s1.processRows = Machine_populateAccumulatedFields s.processRows ∧
    s1.tableCount = s.tableCount := by
  simp only [Machine_scanTables] at hrun
  split_ifs at hrun
  all_goals
    first
    | exact Option.noConfusion hrun
    | (simp only [Option.some_inj] at hrun
       obtain ⟨hs, ht⟩ := Prod.mk.inj hrun
       subst hs
       subst ht
       exact ⟨by rw [scanTrace_foldl_eq], rfl, rfl, rfl⟩)

theorem claim7_witness :
    [ScanEvent.advanceClock, ScanEvent.resetMaxUserId]
        ++ (List.range 2).flatMap
             (fun i => [ScanEvent.scanPrepare i, ScanEvent.scanIterate i,
                        ScanEvent.scanCleanup i])
        ++ [ScanEvent.accumulate, ScanEvent.publishMaxUserId]
      = [ScanEvent.advanceClock, ScanEvent.resetMaxUserId]
        ++ (List.range (2 : Nat)).flatMap
             (fun i => [ScanEvent.scanPrepare i, ScanEvent.scanIterate i,
                        ScanEvent.scanCleanup i])
        ++ [ScanEvent.accumulate, ScanEvent.publishMaxUserId] ∧
    (⟨true, 0, 1, 0, 2, []⟩ : MachineState).maxUserId = 0 ∧
    (⟨true, 0, 1, 0, 2, []⟩ : MachineState).processRows
      = Machine_populateAccumulatedFields ([] : List PRow) ∧
    (⟨true, 0, 1, 0, 2, []⟩ : MachineState).tableCount
      = (⟨false, 0, 0, 7, 2, []⟩ : MachineState).tableCount := by
  have h := claim7_scan_order ⟨false, 0, 0, 7, 2, []⟩ 0 ⟨true, 0, 1, 0, 2, []⟩
    ([ScanEvent.advanceClock, ScanEvent.resetMaxUserId]
        ++ (List.range 2).flatMap
             (fun i => [ScanEvent.scanPrepare i, ScanEvent.scanIterate i,
                        ScanEvent.scanCleanup i])
        ++ [ScanEvent.accumulate, ScanEvent.publishMaxUserId]) (by decide)
  exact h

lemma head?_addTable (ts : List Nat) (t : Nat) (h : ts ≠ []) :
    (Machine_addTable ts t).head? = ts.head? := by
  unfold Machine_addTable
  split
  · rfl
  · cases ts with
    | nil => exact absurd rfl h
    | cons a r => rfl

lemma addTable_ne_nil (ts : List Nat) (t : Nat) (h : ts ≠ []) :
    Machine_addTable ts t ≠ [] := by
  unfold Machine_addTable
  split
  · exact h
  · simp

lemma populateTablesAux_stable (proc : Nat) :
    ∀ (rest : List (Option Nat)) (i : Nat) (ts : List Nat) (act : Option Nat),
      ts ≠ [] → i ≠ 0 →
      (populateTablesAux proc i rest ts act).1.head? = ts.head? ∧
      (populateTablesAux proc i rest ts act).2 = act := by
  intro rest
  induction rest with
  | nil => intro i ts act _ _; exact ⟨rfl, rfl⟩
  | cons o r ih =>
    intro i ts act h hi
    simp only [populateTablesAux]
    rw [if_neg hi]
    have h2 : Machine_addTable ts (o.getD proc) ≠ [] := addTable_ne_nil ts _ h
    have h3 := ih (i + 1) (Machine_addTable ts (o.getD proc)) act h2 (by omega)
    exact ⟨by rw [h3.1, head?_addTable ts _ h], h3.2⟩

/-- C8: registering an already-present table leaves the registry unchanged
(idempotent, no error); registering a distinct table appends it at the end;
and after `Machine_populateTablesFromSettings` the first screen's resolved
table — the first table registered — is the active table and the head of
the registry. -/
theorem claim8_table_registration :
    (∀ (ts : List Nat) (t : Nat), t ∈ ts → Machine_addTable ts t = ts) ∧
    (∀ (ts : List Nat) (t : Nat), t ∉ ts → Machine_addTable ts t = ts ++ [t]) ∧
    (∀ (proc : Nat) (o : Option Nat) (rest : List (Option Nat)),
      (Machine_populateTablesFromSettings proc (o :: rest)).2 = some (o.getD proc) ∧
      (Machine_populateTablesFromSettings proc (o :: rest)).1.head?
        = some (o.getD proc)) := by
  refine ⟨?_, ?_, ?_⟩
  · intro ts t h
    simp [Machine_addTable, h]
  · intro ts t h
    simp [Machine_addTable, h]
  · intro proc o rest
    unfold Machine_populateTablesFromSettings
    simp only [populateTablesAux]
    norm_num
    have haddnil : Machine_addTable [] (o.getD proc) = [o.getD proc] := by
      simp [Machine_addTable]
    rw [haddnil]
    have h3 := populateTablesAux_stable proc rest 1 [o.getD proc]
      (some (o.getD proc)) (by simp) (by omega)
    exact ⟨h3.2, by rw [h3.1]; rfl⟩

theorem claim8_witness :
    Machine_addTable [3] 3 = [3] ∧
    Machine_addTable [3] 4 = [3] ++ [4] ∧
    ((Machine_populateTablesFromSettings 9 [none, some 2]).2 = some ((none : Option Nat).getD 9) ∧
      (Machine_populateTablesFromSettings 9 [none, some 2]).1.head?
        = some ((none : Option Nat).getD 9)) :=
  ⟨claim8_table_registration.1 [3] 3 (by decide),
   claim8_table_registration.2.1 [3] 4 (by decide),
   claim8_table_registration.2.2 9 none [some 2]⟩

lemma scanTables_clock (s : MachineState) (m : Int) (s1 : MachineState)
    (tr : List ScanEvent) (h : Machine_scanTables s m = some (s1, tr)) :
    s1.firstScanDone = true ∧
    s1.prevMonotonicMs = (if s.firstScanDone then s.monotonicMs else 0) ∧
    s1.monotonicMs = (if s.firstScanDone then m else 1) ∧
    s1.prevMonotonicMs < s1.monotonicMs := by
  simp only [Machine_scanTables] at h
  split_ifs at h with h1 h2
  all_goals
    first
    | exact Option.noConfusion h
    | (simp only [Option.some_inj] at h
       obtain ⟨hs, ht⟩ := Prod.mk.inj h
       subst hs
       refine ⟨rfl, ?_, ?_, ?_⟩ <;> simp_all)

lemma scanStates_chain (ms : List Int) :
    ∀ (s : MachineState) (l : List MachineState),
      s.firstScanDone = true → scanStates s ms = some l →
      l.length = ms.length ∧
      (0 < l.length →
        (l.getD 0 dM).prevMonotonicMs = s.monotonicMs ∧
        (l.getD 0 dM).monotonicMs = ms.getD 0 0 ∧
        (l.getD 0 dM).firstScanDone = true) ∧
      (∀ k, k + 1 < l.length →
        (l.getD (k + 1) dM).prevMonotonicMs = (l.getD k dM).monotonicMs ∧
        (l.getD (k + 1) dM).monotonicMs = ms.getD (k + 1) 0) ∧
      (∀ k, k < l.length →
        (l.getD k dM).prevMonotonicMs < (l.getD k dM).monotonicMs) := by
  induction ms with
  | nil =>
    intro s l _ h
    simp only [scanStates, Option.some_inj] at h
    subst h
    refine ⟨rfl, by simp, by simp, by simp⟩
  | cons m ms ih =>
    intro s l hs h
    simp only [scanStates] at h
    cases hst : Machine_scanTables s m with
    | none => rw [hst] at h; exact Option.noConfusion h
    | some p =>
      obtain ⟨s1, tr⟩ := p
      rw [hst] at h
      have h2 : (match scanStates s1 ms with
          | none => none
          | some l2 => some (s1 :: l2)) = some l := h
      cases hrest : scanStates s1 ms with
      | none => rw [hrest] at h2; exact Option.noConfusion h2
      | some l2 =>
        rw [hrest] at h2
        simp only [Option.some_inj] at h2
        subst h2
        have hc := scanTables_clock s m s1 tr hst
        have hprev : s1.prevMonotonicMs = s.monotonicMs := by
          rw [hc.2.1, if_pos hs]
        have hmono : s1.monotonicMs = m := by
          rw [hc.2.2.1, if_pos hs]
        have IH := ih s1 l2 hc.1 hrest
        refine ⟨by simp [IH.1], ?_, ?_, ?_⟩
        · intro _
          exact ⟨hprev, hmono, hc.1⟩
        · intro k hk
          cases k with
          | zero =>
            have h0 : 0 < l2.length := by
              simp at hk
              omega
            have hfst := IH.2.1 h0
            simp only [List.getD_cons_succ, List.getD_cons_zero]
            exact ⟨hfst.1, hfst.2.1⟩
          | succ j =>
            have hj : j + 1 < l2.length := by
              simp at hk
              omega
            have := IH.2.2.1 j hj
            simpa only [List.getD_cons_succ] using this
        · intro k hk
          cases k with
          | zero => exact hc.2.2.2
          | succ j =>
            have hj : j < l2.length := by
              simp at hk
              omega
            have := IH.2.2.2 j hj
            simpa only [List.getD_cons_succ] using this

/-- C5: for every sequence of scan cycles on a fresh machine, the first
cycle sets previous logical time 0 and current logical time 1; each later
cycle `k` sets previous to cycle `k-1`'s current and reads the fresh
monotonic value as current; and every cycle's current logical time is
strictly greater than its previous logical time. -/
theorem claim5_clock_sequence (s0 : MachineState) (ms : List Int)
    (l : List MachineState) (hfresh : s0.firstScanDone = false)
    (hrun : scanStates s0 ms = some l) :
    l.length = ms.length ∧
    (0 < l.length →
      (l.getD 0 dM).prevMonotonicMs = 0 ∧ (l.getD 0 dM).monotonicMs = 1) ∧
    (∀ k, k + 1 < l.length →
      (l.getD (k + 1) dM).prevMonotonicMs = (l.getD k dM).monotonicMs ∧
      (l.getD (k + 1) dM).monotonicMs = ms.getD (k + 1) 0) ∧
    (∀ k, k < l.length →
      (l.getD k dM).prevMonotonicMs < (l.getD k dM).monotonicMs) := by
  cases ms with
  | nil =>
    simp only [scanStates, Option.some_inj] at hrun
    subst hrun
    refine ⟨rfl, by simp, by simp, by simp⟩
  | cons m ms =>
    simp only [scanStates] at hrun
    cases hst : Machine_scanTables s0 m with
    | none => rw [hst] at hrun; exact Option.noConfusion hrun
    | some p =>
      obtain ⟨s1, tr⟩ := p
      rw [hst] at hrun
      have h2 : (match scanStates s1 ms with
          | none => none
          | some l2 => some (s1 :: l2)) = some l := hrun
      cases hrest : scanStates s1 ms with
      | none => rw [hrest] at h2; exact Option.noConfusion h2
      | some l2 =>
        rw [hrest] at h2
        simp only [Option.some_inj] at h2
        subst h2
        have hc := scanTables_clock s0 m s1 tr hst
        have hprev : s1.prevMonotonicMs = 0 := by
          rw [hc.2.1, if_neg (by simp [hfresh])]
        have hmono : s1.monotonicMs = 1 := by
          rw [hc.2.2.1, if_neg (by simp [hfresh])]
        have IH := scanStates_chain ms s1 l2 hc.1 hrest
        refine ⟨by simp [IH.1], ?_, ?_, ?_⟩
        · intro _
          exact ⟨hprev, hmono⟩
        · intro k hk
          cases k with
          | zero =>
            have h0 : 0 < l2.length := by
              simp at hk
              omega
            have hfst := IH.2.1 h0
            simp only [List.getD_cons_succ, List.getD_cons_zero]
            exact ⟨hfst.1, hfst.2.1⟩
          | succ j =>
            have hj : j + 1 < l2.length := by
              simp at hk
              omega
            have := IH.2.2.1 j hj
            simpa only [List.getD_cons_succ] using this
        · intro k hk
          cases k with
          | zero => exact hc.2.2.2
          | succ j =>
            have hj : j < l2.length := by
              simp at hk
              omega
            have := IH.2.2.2 j hj
            simpa only [List.getD_cons_succ] using this

theorem claim5_witness :
    ([⟨true, 0, 1, 0, 0, []⟩, ⟨true, 1, 9, 0, 0, []⟩] : List MachineState).length
        = ([5, 9] : List Int).length ∧
    (0 < ([⟨true, 0, 1, 0, 0, []⟩, ⟨true, 1, 9, 0, 0, []⟩] : List MachineState).length →
      (([⟨true, 0, 1, 0, 0, []⟩, ⟨true, 1, 9, 0, 0, []⟩] : List MachineState).getD 0 dM).prevMonotonicMs = 0 ∧
      (([⟨true, 0, 1, 0, 0, []⟩, ⟨true, 1, 9, 0, 0, []⟩] : List MachineState).getD 0 dM).monotonicMs = 1) ∧
    (∀ k, k + 1 < ([⟨true, 0, 1, 0, 0, []⟩, ⟨true, 1, 9, 0, 0, []⟩] : List MachineState).length →
      (([⟨true, 0, 1, 0, 0, []⟩, ⟨true, 1, 9, 0, 0, []⟩] : List MachineState).getD (k + 1) dM).prevMonotonicMs
          = (([⟨true, 0, 1, 0, 0, []⟩, ⟨true, 1, 9, 0, 0, []⟩] : List MachineState).getD k dM).monotonicMs ∧
      (([⟨true, 0, 1, 0, 0, []⟩, ⟨true, 1, 9, 0, 0, []⟩] : List MachineState).getD (k + 1) dM).monotonicMs
          = ([5, 9] : List Int).getD (k + 1) 0) ∧
    (∀ k, k < ([⟨true, 0, 1, 0, 0, []⟩, ⟨true, 1, 9, 0, 0, []⟩] : List MachineState).length →
      (([⟨true, 0, 1, 0, 0, []⟩, ⟨true, 1, 9, 0, 0, []⟩] : List MachineState).getD k dM).prevMonotonicMs
          < (([⟨true, 0, 1, 0, 0, []⟩, ⟨true, 1, 9, 0, 0, []⟩] : List MachineState).getD k dM).monotonicMs) :=
  claim5_clock_sequence dM [5, 9]
    [⟨true, 0, 1, 0, 0, []⟩, ⟨true, 1, 9, 0, 0, []⟩] rfl (by decide)

lemma accLoopGCost_nochild (rows : List PRow) (cur : Nat) (rid : Int)
    (rec : Nat → List Int → List Int × Int × Nat) :
    ∀ (pending : List Nat) (acc : List Int),
      (∀ j ∈ pending, j = cur ∨ (rows.getD j dRow).parent ≠ rid) →
      accLoopGCost rows cur rid rec pending acc = (acc, pending.length) := by
  intro pending
  induction pending with
  | nil => intro acc _; rfl
  | cons i rest ih =>
    intro acc h
    simp only [accLoopGCost]
    by_cases hc : i = cur
    · rw [if_pos hc, ih acc (fun j hj => h j (by simp [hj]))]
      simp
    · have h1 : (rows.getD i dRow).parent ≠ rid := by
        rcases h i (by simp) with h2 | h2
        · exact absurd h2 hc
        · exact h2
      rw [if_neg hc, if_neg h1, ih acc (fun j hj => h j (by simp [hj]))]
      simp

lemma accForCost_nochild (rows : List PRow) (fuel cur : Nat) (acc : List Int)
    (hcur : cur < acc.length)
    (hacc : acc.getD cur (-1) = -1)
    (hnoc : ∀ j, j < rows.length →
      (rows.getD j dRow).parent ≠ (rows.getD cur dRow).id) :
    accForProcessCost rows (fuel + 1) cur acc
      = (acc.set cur (rows.getD cur dRow).resident,
         (rows.getD cur dRow).resident, rows.length) := by
  simp only [accForProcessCost]
  rw [if_neg (fun h => h hacc)]
  rw [accLoopGCost_nochild rows cur _ _ (List.range rows.length)
    (acc.set cur (rows.getD cur dRow).resident)
    (fun j hj => Or.inr (hnoc j (List.mem_range.mp hj)))]
  simp only [List.length_range]
  rw [getD_set_self _ _ _ hcur]

lemma flatRows_length (n : Nat) : (flatRows n).length = n := by
  unfold flatRows
  rw [List.length_map, List.length_range]

lemma flatRows_getD (n i : Nat) (h : i < n) :
    (flatRows n).getD i dRow = ⟨(i : Int) + 1, 0, 0⟩ := by
  unfold flatRows
  rw [List.getD_eq_getElem?_getD, List.getElem?_map, List.getElem?_range h]
  rfl

lemma flatRows_nochild (n cur : Nat) (hcur : cur < n) :
    ∀ j, j < (flatRows n).length →
      ((flatRows n).getD j dRow).parent ≠ ((flatRows n).getD cur dRow).id := by
  intro j hj
  rw [flatRows_length] at hj
  rw [flatRows_getD n j hj, flatRows_getD n cur hcur]
  simp only
  omega

lemma costFold_flat (n : Nat) :
    ∀ (idxs : List Nat) (acc : List Int) (c0 : Nat),
      acc.length = n →
      (∀ j ∈ idxs, j < n) →
      (∀ j ∈ idxs, acc.getD j (-1) = -1) →
      idxs.Nodup →
      ((idxs.foldl
        (fun s i =>
          let r := accForProcessCost (flatRows n) (n + 1) i s.1
          (r.1, s.2 + r.2.2)) (acc, c0)).2 = c0 + idxs.length * n) := by
  intro idxs
  induction idxs with
  | nil => intro acc c0 _ _ _ _; simp
  | cons i rest ih =>
    intro acc c0 hlen hidx hunv hnodup
    have hin : i < n := hidx i (by simp)
    have hstep := accForCost_nochild (flatRows n) n i acc
      (by rw [hlen]; exact hin) (hunv i (by simp))
      (flatRows_nochild n i hin)
    rw [List.foldl_cons]
    simp only [hstep, flatRows_length]
    have hres : ((flatRows n).getD i dRow).resident = 0 := by
      rw [flatRows_getD n i hin]
    rw [hres]
    have hrest := ih (acc.set i 0) (c0 + n)
      (by rw [List.length_set, hlen])
      (fun j hj => hidx j (by simp [hj]))
      (fun j hj => by
        have hne : i ≠ j := by
          intro he
          subst he
          exact (List.nodup_cons.mp hnodup).1 hj
        rw [getD_set_ne _ _ hne]
        exact hunv j (by simp [hj]))
      (List.nodup_cons.mp hnodup).2
    rw [hrest]
    simp only [List.length_cons]
    ring

lemma accumulatedCost_flat (n : Nat) : accumulatedCost (flatRows n) = n * n := by
  unfold accumulatedCost
  rw [flatRows_length]
  have h := costFold_flat n (List.range n) (List.replicate n (-1)) 0
    (List.length_replicate n _)
    (fun j hj => List.mem_range.mp hj)
    (fun j hj => getD_replicate_neg n j (List.mem_range.mp hj))
    (List.nodup_range n)
  rw [h, List.length_range]
  omega

lemma rowEdgeCount_flat (n : Nat) : rowEdgeCount (flatRows n) = 0 := by
  unfold rowEdgeCount
  apply List.sum_eq_zero
  intro x hx
  obtain ⟨j, hj, hje⟩ := List.mem_map.mp hx
  have hjn : j < n := by
    rw [flatRows_length] at hj
    exact List.mem_range.mp hj
  have : ((List.range (flatRows n).length).filter
      (fun i => rowId (flatRows n) i = rowParent (flatRows n) j)) = [] := by
    rw [List.filter_eq_nil_iff]
    intro i hi
    rw [flatRows_length] at hi
    have hin : i < n := List.mem_range.mp hi
    simp only [rowId, rowParent, decide_eq_true_eq]
    rw [flatRows_getD n i hin, flatRows_getD n j hjn]
    simp only
    omega
  rw [← hje, this]
  rfl

/-- C9 (counterexample): the code's accumulation is not linear in
`n + e` — on the zero-edge family `flatRows n` it performs `n * n`
inner-loop iterations, which no constant `c` can bound by
`c * (n + e + 1)`. -/
theorem claim9_counterexample : ¬ accumulationIsLinear := by
  rintro ⟨c, hc⟩
  have h := hc (flatRows (c + 1))
  rw [accumulatedCost_flat, rowEdgeCount_flat, flatRows_length] at h
  nlinarith

/-- C9 (amended): the algorithm as written is quadratic, not linear: on
`n` rows with no parent edges it performs exactly `n * n` inner-loop
iterations (each of the `n` top-level traversals scans all `n` rows, as the
code's own FIXME comment says). -/
theorem claim9_quadratic_cost (n : Nat) :
    accumulatedCost (flatRows n) = n * n ∧
    rowEdgeCount (flatRows n) = 0 ∧
    (flatRows n).length = n :=
  ⟨accumulatedCost_flat n, rowEdgeCount_flat n, flatRows_length n⟩

/-- C3 (amended): an in-progress child contributes its current partial
accumulated value — its raw value plus the accumulated values of the
children processed before the cycle edge is followed — which equals its
raw value only when it has absorbed no child yet.  In the minimal mutual
cycle the child (row `id 1`, traversed first) contributes exactly its raw
value `ra` to its parent `id 2`, which therefore accumulates `rb + ra`,
while row `id 1` ends at `ra + (rb + ra)`. -/
theorem claim3_partial_contribution (ra rb : Int) (hra : 0 ≤ ra) (hrb : 0 ≤ rb) :
    accumulatedValues (mutualCycleRows ra rb) = [ra + (rb + ra), rb + ra] := by
  have hra2 : ¬(ra = -1) := by omega
  have hsum2 : ¬(rb + ra = -1) := by omega
  unfold accumulatedValues accumulatedValuesFuel mutualCycleRows
  simp only [List.length_cons, List.length_nil]
  norm_num [List.range_succ]
  simp [Machine_populateAccForProcess, accLoopG, List.set, hra2, hsum2]

theorem claim3_witness :
    accumulatedValues (mutualCycleRows 5 7) = [5 + (7 + 5), 7 + 5] :=
  claim3_partial_contribution 5 7 (by decide) (by decide)

lemma countNeg_le (acc : List Int) : countNeg acc ≤ acc.length := by
  unfold countNeg
  calc ((Finset.range acc.length).filter (fun k => acc.getD k (-1) = -1)).card
      ≤ (Finset.range acc.length).card := Finset.card_filter_le _ _
    _ = acc.length := Finset.card_range _

lemma countNeg_mono (acc acc2 : List Int) (hlen : acc2.length = acc.length)
    (h : ∀ k, k < acc.length → acc2.getD k (-1) = -1 → acc.getD k (-1) = -1) :
    countNeg acc2 ≤ countNeg acc := by
  unfold countNeg
  rw [hlen]
  apply Finset.card_le_card
  intro k hk
  simp only [Finset.mem_filter, Finset.mem_range] at hk ⊢
  exact ⟨hk.1, h k hk.1 hk.2⟩

lemma countNeg_set_lt (acc : List Int) (cur : Nat) (v : Int)
    (hcur : cur < acc.length) (hacc : acc.getD cur (-1) = -1) (hv : ¬v = -1) :
    countNeg (acc.set cur v) < countNeg acc := by
  unfold countNeg
  rw [List.length_set]
  have hmem : cur ∈ (Finset.range acc.length).filter
      (fun k => acc.getD k (-1) = -1) := by
    simp only [Finset.mem_filter, Finset.mem_range]
    exact ⟨hcur, hacc⟩
  have hsub : (Finset.range acc.length).filter
        (fun k => (acc.set cur v).getD k (-1) = -1)
      ⊆ ((Finset.range acc.length).filter
        (fun k => acc.getD k (-1) = -1)).erase cur := by
    intro k hk
    simp only [Finset.mem_filter, Finset.mem_range] at hk
    by_cases he : cur = k
    · subst he
      rw [getD_set_self _ _ _ hcur] at hk
      exact absurd hk.2 hv
    · simp only [Finset.mem_erase, Finset.mem_filter, Finset.mem_range]
      rw [getD_set_ne _ _ he] at hk
      exact ⟨fun h2 => he h2.symm, hk.1, hk.2⟩
  calc ((Finset.range acc.length).filter
        (fun k => (acc.set cur v).getD k (-1) = -1)).card
      ≤ (((Finset.range acc.length).filter
        (fun k => acc.getD k (-1) = -1)).erase cur).card := Finset.card_le_card hsub
    _ < ((Finset.range acc.length).filter
        (fun k => acc.getD k (-1) = -1)).card := Finset.card_erase_lt_of_mem hmem

lemma sim2_loop (rows : List PRow)
    (f : Nat) (hIH : sim2Main rows f) (cur : Nat) (hcur : cur < rows.length)
    (rid : Int) :
    ∀ (pending : List Nat) (acc : List Int),
      (∀ j ∈ pending, j < rows.length) →
      acc.length = rows.length →
      countNeg acc < f →
      nnInv rows.length acc →
      0 ≤ acc.getD cur (-1) →
      (accLoopG rows cur rid
          (fun i ac => Machine_populateAccForProcess rows f i ac) pending acc).length
          = rows.length ∧
      nnInv rows.length (accLoopG rows cur rid
          (fun i ac => Machine_populateAccForProcess rows f i ac) pending acc) ∧
      0 ≤ (accLoopG rows cur rid
          (fun i ac => Machine_populateAccForProcess rows f i ac) pending acc).getD cur (-1) ∧
      (∀ k, k < rows.length → k ≠ cur → acc.getD k (-1) ≠ -1 →
        (accLoopG rows cur rid
          (fun i ac => Machine_populateAccForProcess rows f i ac) pending acc).getD k (-1)
          = acc.getD k (-1)) ∧
      countNeg (accLoopG rows cur rid
          (fun i ac => Machine_populateAccForProcess rows f i ac) pending acc)
        ≤ countNeg acc := by
  intro pending
  induction pending with
  | nil =>
    intro acc _ hlen _ hinv hnn
    exact ⟨hlen, hinv, hnn, fun _ _ _ _ => rfl, le_refl _⟩
  | cons i rest ih =>
    intro acc hmem hlen hcnt hinv hnn
    simp only [accLoopG]
    by_cases h1 : i = cur
    · rw [if_pos h1]
      exact ih acc (fun j hj => hmem j (by simp [hj])) hlen hcnt hinv hnn
    · rw [if_neg h1]
      by_cases h2 : (rows.getD i dRow).parent = rid
      · rw [if_pos h2]
        have hi : i < rows.length := hmem i (by simp)
        have hpost := hIH i acc hi hlen hcnt hinv
        obtain ⟨hplen, hpinv, hpnn, hpval, hpun, hpcnt⟩ := hpost
        set r := Machine_populateAccForProcess rows f i acc with hr
        have hcurlen : cur < r.1.length := by rw [hplen, hlen]; exact hcur
        have hcne : acc.getD cur (-1) ≠ -1 := by omega
        have hrcur : r.1.getD cur (-1) = acc.getD cur (-1) := hpun cur hcur hcne
        have hnewnn : 0 ≤ r.1.getD cur (-1) + r.2 := by omega
        set acc2 := r.1.set cur (r.1.getD cur (-1) + r.2) with hacc2
        have hlen2 : acc2.length = rows.length := by
          rw [hacc2, List.length_set, hplen, hlen]
        have hinv2 : nnInv rows.length acc2 := by
          intro k hk
          by_cases he : cur = k
          · subst he
            rw [hacc2, getD_set_self _ _ _ hcurlen]
            right
            exact hnewnn
          · rw [hacc2, getD_set_ne _ _ he]
            exact hpinv k hk
        have hnn2 : 0 ≤ acc2.getD cur (-1) := by
          rw [hacc2, getD_set_self _ _ _ hcurlen]
          exact hnewnn
        have hcnt2 : countNeg acc2 ≤ countNeg acc := by
          have hstep : countNeg acc2 ≤ countNeg r.1 := by
            apply countNeg_mono
            · rw [hacc2, List.length_set]
            · intro k hk hk2
              by_cases he : cur = k
              · subst he
                rw [hacc2, getD_set_self _ _ _ hcurlen] at hk2
                omega
              · rw [hacc2, getD_set_ne _ _ he] at hk2
                exact hk2
          omega
        have hun2 : ∀ k, k < rows.length → k ≠ cur → acc.getD k (-1) ≠ -1 →
            acc2.getD k (-1) = acc.getD k (-1) := by
          intro k hk hkc hkn
          rw [hacc2, getD_set_ne _ _ (fun h => hkc h.symm)]
          exact hpun k hk hkn
        have hrest := ih acc2 (fun j hj => hmem j (by simp [hj])) hlen2
          (by omega) hinv2 hnn2
        refine ⟨hrest.1, hrest.2.1, hrest.2.2.1, ?_, by omega⟩
        intro k hk hkc hkn
        have h3 := hrest.2.2.2.1 k hk hkc
        rw [h3 (by rw [hun2 k hk hkc hkn]; exact hkn), hun2 k hk hkc hkn]
      · rw [if_neg h2]
        exact ih acc (fun j hj => hmem j (by simp [hj])) hlen hcnt hinv hnn

lemma sim2_main (rows : List PRow)
    (HR : ∀ i, i < rows.length → 0 ≤ rowRes rows i) :
    ∀ f, sim2Main rows f := by
  intro f
  induction f with
  | zero =>
    intro cur acc _ _ hcnt _
    exact absurd hcnt (Nat.not_lt_zero _)
  | succ f ihf =>
    intro cur acc hcur hlen hcnt hinv
    simp only [Machine_populateAccForProcess]
    by_cases hmemo : acc.getD cur (-1) = -1
    · rw [if_neg (fun h => h hmemo)]
      have hres : 0 ≤ (rows.getD cur dRow).resident := HR cur hcur
      have hcurlen : cur < acc.length := by rw [hlen]; exact hcur
      set acc1 := acc.set cur (rows.getD cur dRow).resident with hacc1
      have hlen1 : acc1.length = rows.length := by
        rw [hacc1, List.length_set, hlen]
      have hinv1 : nnInv rows.length acc1 := by
        intro k hk
        by_cases he : cur = k
        · subst he
          rw [hacc1, getD_set_self _ _ _ hcurlen]
          right
          exact hres
        · rw [hacc1, getD_set_ne _ _ he]
          exact hinv k hk
      have hcnt1 : countNeg acc1 < countNeg acc :=
        countNeg_set_lt acc cur _ hcurlen hmemo (by omega)
      have hnn1 : 0 ≤ acc1.getD cur (-1) := by
        rw [hacc1, getD_set_self _ _ _ hcurlen]
        exact hres
      have hloop := sim2_loop rows f ihf cur hcur (rows.getD cur dRow).id
        (List.range rows.length) acc1 (fun j hj => List.mem_range.mp hj)
        hlen1 (by omega) hinv1 hnn1
      refine ⟨by rw [hloop.1, hlen], hloop.2.1, hloop.2.2.1, rfl, ?_,
        le_trans hloop.2.2.2.2 (le_of_lt hcnt1)⟩
      intro k hk hkn
      have hkc : k ≠ cur := by
        intro he
        subst he
        exact hkn hmemo
      have h4 := hloop.2.2.2.1 k hk hkc
      rw [h4 (by rw [hacc1, getD_set_ne _ _ (fun h => hkc h.symm)]; exact hkn),
        hacc1, getD_set_ne _ _ (fun h => hkc h.symm)]
    · rw [if_pos hmemo]
      have h5 := hinv cur hcur
      refine ⟨rfl, hinv, by omega, rfl, fun _ _ _ => rfl, le_refl _⟩

lemma fuelind_loop (rows : List PRow)
    (HR : ∀ i, i < rows.length → 0 ≤ rowRes rows i)
    (g1 g2 : Nat) (cur : Nat) (hcur : cur < rows.length) (rid : Int)
    (hIH : fuelIndStmt rows g1) :
    ∀ (pending : List Nat) (acc : List Int),
      (∀ j ∈ pending, j < rows.length) →
      acc.length = rows.length →
      countNeg acc < g1 → countNeg acc < g2 →
      nnInv rows.length acc →
      0 ≤ acc.getD cur (-1) →
      accLoopG rows cur rid
          (fun i ac => Machine_populateAccForProcess rows g1 i ac) pending acc
        = accLoopG rows cur rid
          (fun i ac => Machine_populateAccForProcess rows g2 i ac) pending acc := by
  intro pending
  induction pending with
  | nil => intro acc _ _ _ _ _ _; rfl
  | cons i rest ih =>
    intro acc hmem hlen hcnt1 hcnt2 hinv hnn
    simp only [accLoopG]
    by_cases h1 : i = cur
    · rw [if_pos h1, if_pos h1]
      exact ih acc (fun j hj => hmem j (by simp [hj])) hlen hcnt1 hcnt2 hinv hnn
    · rw [if_neg h1, if_neg h1]
      by_cases h2 : (rows.getD i dRow).parent = rid
      · rw [if_pos h2, if_pos h2]
        have hi : i < rows.length := hmem i (by simp)
        have heq := hIH g2 i acc hi hlen hcnt1 hcnt2 hinv
        rw [← heq]
        have hpost := sim2_main rows HR g1 i acc hi hlen hcnt1 hinv
        obtain ⟨hplen, hpinv, hpnn, hpval, hpun, hpcnt⟩ := hpost
        set r := Machine_populateAccForProcess rows g1 i acc with hr
        have hcurlen : cur < r.1.length := by rw [hplen, hlen]; exact hcur
        have hcne : acc.getD cur (-1) ≠ -1 := by omega
        have hrcur : r.1.getD cur (-1) = acc.getD cur (-1) := hpun cur hcur hcne
        have hnewnn : 0 ≤ r.1.getD cur (-1) + r.2 := by omega
        set acc2 := r.1.set cur (r.1.getD cur (-1) + r.2) with hacc2
        have hlen2 : acc2.length = rows.length := by
          rw [hacc2, List.length_set, hplen, hlen]
        have hinv2 : nnInv rows.length acc2 := by
          intro k hk
          by_cases he : cur = k
          · subst he
            rw [hacc2, getD_set_self _ _ _ hcurlen]
            right
            exact hnewnn
          · rw [hacc2, getD_set_ne _ _ he]
            exact hpinv k hk
        have hnn2 : 0 ≤ acc2.getD cur (-1) := by
          rw [hacc2, getD_set_self _ _ _ hcurlen]
          exact hnewnn
        have hcnt2b : countNeg acc2 ≤ countNeg acc := by
          have hstep : countNeg acc2 ≤ countNeg r.1 := by
            apply countNeg_mono
            · rw [hacc2, List.length_set]
            · intro k hk hk2
              by_cases he : cur = k
              · subst he
                rw [hacc2, getD_set_self _ _ _ hcurlen] at hk2
                omega
              · rw [hacc2, getD_set_ne _ _ he] at hk2
                exact hk2
          omega
        exact ih acc2 (fun j hj => hmem j (by simp [hj])) hlen2
          (by omega) (by omega) hinv2 hnn2
      · rw [if_neg h2, if_neg h2]
        exact ih acc (fun j hj => hmem j (by simp [hj])) hlen hcnt1 hcnt2 hinv hnn

lemma fuelind_main (rows : List PRow)
    (HR : ∀ i, i < rows.length → 0 ≤ rowRes rows i) :
    ∀ f1, fuelIndStmt rows f1 := by
  intro f1
  induction f1 with
  | zero =>
    intro f2 cur acc _ _ hcnt1 _ _
    exact absurd hcnt1 (Nat.not_lt_zero _)
  | succ g1 ih =>
    intro f2 cur acc hcur hlen h1 h2 hinv
    cases f2 with
    | zero => exact absurd h2 (Nat.not_lt_zero _)
    | succ g2 =>
      simp only [Machine_populateAccForProcess]
      by_cases hmemo : acc.getD cur (-1) = -1
      · rw [if_neg (fun h => h hmemo), if_neg (fun h => h hmemo)]
        have hres : 0 ≤ (rows.getD cur dRow).resident := HR cur hcur
        have hcurlen : cur < acc.length := by rw [hlen]; exact hcur
        set acc1 := acc.set cur (rows.getD cur dRow).resident with hacc1
        have hlen1 : acc1.length = rows.length := by
          rw [hacc1, List.length_set, hlen]
        have hinv1 : nnInv rows.length acc1 := by
          intro k hk
          by_cases he : cur = k
          · subst he
            rw [hacc1, getD_set_self _ _ _ hcurlen]
            right
            exact hres
          · rw [hacc1, getD_set_ne _ _ he]
            exact hinv k hk
        have hcnt1 : countNeg acc1 < countNeg acc :=
          countNeg_set_lt acc cur _ hcurlen hmemo (by omega)
        have hnn1 : 0 ≤ acc1.getD cur (-1) := by
          rw [hacc1, getD_set_self _ _ _ hcurlen]
          exact hres
        have hle := fuelind_loop rows HR g1 g2 cur hcur (rows.getD cur dRow).id
          ih (List.range rows.length) acc1 (fun j hj => List.mem_range.mp hj)
          hlen1 (by omega) (by omega) hinv1 hnn1
        rw [hle]
      · rw [if_pos hmemo, if_pos hmemo]

lemma accFold_eq (rows : List PRow)
    (HR : ∀ i, i < rows.length → 0 ≤ rowRes rows i)
    (f : Nat) (hf : rows.length + 1 ≤ f) :
    ∀ (idxs : List Nat) (acc : List Int),
      (∀ j ∈ idxs, j < rows.length) → acc.length = rows.length →
      nnInv rows.length acc →
      idxs.foldl (fun acc i => (Machine_populateAccForProcess rows f i acc).1) acc
        = idxs.foldl (fun acc i =>
            (Machine_populateAccForProcess rows (rows.length + 1) i acc).1) acc := by
  intro idxs
  induction idxs with
  | nil => intro acc _ _ _; rfl
  | cons i rest ih =>
    intro acc hmem hlen hinv
    have hi : i < rows.length := hmem i (by simp)
    have hcnt : countNeg acc ≤ rows.length := by
      have := countNeg_le acc
      omega
    have heq := fuelind_main rows HR f (rows.length + 1) i acc hi hlen
      (by omega) (by omega) hinv
    simp only [List.foldl_cons]
    rw [heq]
    have hpost := sim2_main rows HR (rows.length + 1) i acc hi hlen (by omega) hinv
    exact ih _ (fun j hj => hmem j (by simp [hj])) (by rw [hpost.1, hlen]) hpost.2.1

lemma accFold_nonneg (rows : List PRow)
    (HR : ∀ i, i < rows.length → 0 ≤ rowRes rows i) :
    ∀ (idxs : List Nat) (acc : List Int),
      (∀ j ∈ idxs, j < rows.length) → acc.length = rows.length →
      nnInv rows.length acc →
      (∀ k, k < rows.length → acc.getD k (-1) ≠ -1 →
        (idxs.foldl (fun acc i =>
          (Machine_populateAccForProcess rows (rows.length + 1) i acc).1) acc).getD k (-1)
          = acc.getD k (-1)) ∧
      (∀ j ∈ idxs, 0 ≤ (idxs.foldl (fun acc i =>
          (Machine_populateAccForProcess rows (rows.length + 1) i acc).1) acc).getD j (-1)) ∧
      nnInv rows.length (idxs.foldl (fun acc i =>
          (Machine_populateAccForProcess rows (rows.length + 1) i acc).1) acc) ∧
      (idxs.foldl (fun acc i =>
          (Machine_populateAccForProcess rows (rows.length + 1) i acc).1) acc).length
        = rows.length := by
  intro idxs
  induction idxs with
  | nil =>
    intro acc _ hlen hinv
    exact ⟨fun _ _ _ => rfl, by simp, hinv, hlen⟩
  | cons i rest ih =>
    intro acc hmem hlen hinv
    have hi : i < rows.length := hmem i (by simp)
    have hcnt : countNeg acc ≤ rows.length := by
      have := countNeg_le acc
      omega
    have hpost := sim2_main rows HR (rows.length + 1) i acc hi hlen (by omega) hinv
    obtain ⟨hplen, hpinv, hpnn, hpval, hpun, _⟩ := hpost
    set acc2 := (Machine_populateAccForProcess rows (rows.length + 1) i acc).1
      with hacc2
    have hlen2 : acc2.length = rows.length := by rw [hplen, hlen]
    have hnn2 : 0 ≤ acc2.getD i (-1) := by rw [← hpval]; exact hpnn
    have hrest := ih acc2 (fun j hj => hmem j (by simp [hj])) hlen2 hpinv
    simp only [List.foldl_cons]
    refine ⟨?_, ?_, hrest.2.2.1, hrest.2.2.2⟩
    · intro k hk hkn
      rw [hrest.1 k hk (by rw [hpun k hk hkn]; exact hkn), hpun k hk hkn]
    · intro j hj
      rcases List.mem_cons.mp hj with he | he
      · subst he
        rw [hrest.1 j hi (by omega)]
        exact hnn2
      · exact hrest.2.1 j he

/-- C2: for every row set, including parent links forming arbitrary
directed graphs with cycles and dangling references, the accumulation pass
terminates (its result is independent of any fuel at least `n + 1`, i.e.
the C recursion bottoms out) and assigns every row a finite, non-negative
accumulated value, given non-negative raw values. -/
theorem claim2_termination_nonneg (rows : List PRow)
    (hraw : ∀ i, i < rows.length → 0 ≤ rowRes rows i) :
    (∀ f, rows.length + 1 ≤ f → accumulatedValuesFuel rows f = accumulatedValues rows) ∧
    (accumulatedValues rows).length = rows.length ∧
    (∀ i, i < rows.length → 0 ≤ (accumulatedValues rows).getD i (-1)) := by
  have hinv0 : nnInv rows.length (List.replicate rows.length (-1)) := by
    intro k hk
    left
    exact getD_replicate_neg _ k hk
  have hlen0 : (List.replicate rows.length (-1 : Int)).length = rows.length :=
    List.length_replicate _ _
  refine ⟨?_, accumulatedValues_length rows, ?_⟩
  · intro f hf
    unfold accumulatedValues accumulatedValuesFuel
    exact accFold_eq rows hraw f hf (List.range rows.length) _
      (fun j hj => List.mem_range.mp hj) hlen0 hinv0
  · intro i hi
    have h := accFold_nonneg rows hraw (List.range rows.length)
      (List.replicate rows.length (-1)) (fun j hj => List.mem_range.mp hj)
      hlen0 hinv0
    exact h.2.1 i (List.mem_range.mpr hi)

lemma mem_childrenOf (rows : List PRow) (i j : Nat) :
    j ∈ childrenOf rows i ↔ j < rows.length ∧ rowParent rows j = rowId rows i := by
  unfold childrenOf
  rw [List.mem_filter, List.mem_range]
  simp only [decide_eq_true_eq]

lemma accSpecAux_stab (rows : List PRow) (hgt : Nat → Nat)
    (HH : ∀ i j, i < rows.length → j < rows.length →
      rowParent rows j = rowId rows i → hgt j < hgt i) :
    ∀ (d j h1 h2 : Nat), j < rows.length → hgt j ≤ d → hgt j < h1 → hgt j < h2 →
      accSpecAux rows h1 j = accSpecAux rows h2 j := by
  intro d
  induction d with
  | zero =>
    intro j h1 h2 hj hd hh1 hh2
    obtain ⟨a, rfl⟩ : ∃ a, h1 = a + 1 := ⟨h1 - 1, by omega⟩
    obtain ⟨b, rfl⟩ : ∃ b, h2 = b + 1 := ⟨h2 - 1, by omega⟩
    simp only [accSpecAux]
    have hemp : childrenOf rows j = [] := by
      rw [List.eq_nil_iff_forall_not_mem]
      intro k hk
      obtain ⟨hk1, hk2⟩ := (mem_childrenOf rows j k).mp hk
      have := HH j k hj hk1 hk2
      omega
    rw [hemp]
    simp
  | succ d ihd =>
    intro j h1 h2 hj hd hh1 hh2
    obtain ⟨a, rfl⟩ : ∃ a, h1 = a + 1 := ⟨h1 - 1, by omega⟩
    obtain ⟨b, rfl⟩ : ∃ b, h2 = b + 1 := ⟨h2 - 1, by omega⟩
    simp only [accSpecAux]
    congr 1
    apply congrArg List.sum
    apply List.map_congr_left
    intro k hk
    obtain ⟨hk1, hk2⟩ := (mem_childrenOf rows j k).mp hk
    have hlt := HH j k hj hk1 hk2
    exact ihd k a b hk1 (by omega) (by omega) (by omega)

lemma accSpec_eq (rows : List PRow) (hgt : Nat → Nat)
    (HH : ∀ i j, i < rows.length → j < rows.length →
      rowParent rows j = rowId rows i → hgt j < hgt i)
    (i : Nat) (hi : i < rows.length) :
    accSpec rows hgt i
      = rowRes rows i + ((childrenOf rows i).map (accSpec rows hgt)).sum := by
  show accSpecAux rows (hgt i + 1) i
    = rowRes rows i + ((childrenOf rows i).map (accSpec rows hgt)).sum
  simp only [accSpecAux]
  congr 1
  apply congrArg List.sum
  apply List.map_congr_left
  intro k hk
  obtain ⟨hk1, hk2⟩ := (mem_childrenOf rows i k).mp hk
  have hlt := HH i k hi hk1 hk2
  exact accSpecAux_stab rows hgt HH (hgt k) k (hgt i) (hgt k + 1) hk1 le_rfl hlt
    (by omega)

lemma sim_loop (rows : List PRow) (hgt : Nat → Nat)
    (HH : ∀ i j, i < rows.length → j < rows.length →
      rowParent rows j = rowId rows i → hgt j < hgt i)
    (f : Nat) (hIH : simMain rows hgt f)
    (cur : Nat) (hcur : cur < rows.length) (hfc : hgt cur ≤ f)
    (rid : Int) (hrid : rid = (rows.getD cur dRow).id) :
    ∀ (pending : List Nat) (acc : List Int),
      (∀ j ∈ pending, j < rows.length) →
      acc.length = rows.length →
      (∀ k, k < rows.length → hgt k < hgt cur →
        acc.getD k (-1) = -1 ∨ acc.getD k (-1) = accSpec rows hgt k) →
      (accLoopG rows cur rid
        (fun i ac => Machine_populateAccForProcess rows f i ac) pending acc).length
        = rows.length ∧
      (accLoopG rows cur rid
        (fun i ac => Machine_populateAccForProcess rows f i ac) pending acc).getD cur (-1)
        = acc.getD cur (-1) + childSumOver rows hgt cur rid pending ∧
      (∀ k, k < rows.length → k ≠ cur → hgt cur ≤ hgt k →
        (accLoopG rows cur rid
          (fun i ac => Machine_populateAccForProcess rows f i ac) pending acc).getD k (-1)
          = acc.getD k (-1)) ∧
      (∀ k, k < rows.length → hgt k < hgt cur →
        (accLoopG rows cur rid
          (fun i ac => Machine_populateAccForProcess rows f i ac) pending acc).getD k (-1) = -1 ∨
        (accLoopG rows cur rid
          (fun i ac => Machine_populateAccForProcess rows f i ac) pending acc).getD k (-1)
          = accSpec rows hgt k) ∧
      (∀ k, k < rows.length → k ≠ cur → acc.getD k (-1) ≠ -1 →
        (accLoopG rows cur rid
          (fun i ac => Machine_populateAccForProcess rows f i ac) pending acc).getD k (-1)
          = acc.getD k (-1)) := by
  intro pending
  induction pending with
  | nil =>
    intro acc _ hlen hbelow
    refine ⟨hlen, ?_, fun _ _ _ _ => rfl, hbelow, fun _ _ _ _ => rfl⟩
    unfold childSumOver
    simp [accLoopG]
  | cons i rest ih =>
    intro acc hmem hlen hbelow
    simp only [accLoopG]
    by_cases h1 : i = cur
    · rw [if_pos h1]
      have hdrop : childSumOver rows hgt cur rid (i :: rest)
          = childSumOver rows hgt cur rid rest := by
        unfold childSumOver
        rw [List.filter_cons,
          if_neg (by simp only [decide_eq_true_eq]; exact fun hcon => hcon.1 h1)]
      rw [hdrop]
      exact ih acc (fun j hj => hmem j (by simp [hj])) hlen hbelow
    · rw [if_neg h1]
      by_cases h2 : (rows.getD i dRow).parent = rid
      · rw [if_pos h2]
        have hi : i < rows.length := hmem i (by simp)
        have hchild : hgt i < hgt cur := by
          apply HH cur i hcur hi
          show (rows.getD i dRow).parent = (rows.getD cur dRow).id
          rw [← hrid]
          exact h2
        have hpost := hIH i acc hi hlen (by omega)
          (hbelow i hi hchild)
          (fun k hk hkb => hbelow k hk (by omega))
        obtain ⟨hplen, hpval, hpcur, hpu, hpb, hpm⟩ := hpost
        set r := Machine_populateAccForProcess rows f i acc with hr
        have hcurlen2 : cur < r.1.length := by rw [hplen, hlen]; exact hcur
        have hrcur : r.1.getD cur (-1) = acc.getD cur (-1) :=
          hpu cur hcur (fun h => h1 h.symm) (by omega)
        set acc2 := r.1.set cur (r.1.getD cur (-1) + r.2) with hacc2
        have hlen2 : acc2.length = rows.length := by
          rw [hacc2, List.length_set, hplen, hlen]
        have hacc2cur : acc2.getD cur (-1)
            = acc.getD cur (-1) + accSpec rows hgt i := by
          rw [hacc2, getD_set_self _ _ _ hcurlen2, hrcur, hpval]
        have hbelow2 : ∀ k, k < rows.length → hgt k < hgt cur →
            acc2.getD k (-1) = -1 ∨ acc2.getD k (-1) = accSpec rows hgt k := by
          intro k hk hkb
          have hkc : ¬(cur = k) := fun he => by rw [← he] at hkb; omega
          rw [hacc2, getD_set_ne _ _ hkc]
          by_cases hki : k = i
          · subst hki
            right
            exact hpcur
          · by_cases hkb2 : hgt k < hgt i
            · exact hpb k hk hkb2
            · rw [hpu k hk hki (by omega)]
              exact hbelow k hk hkb
        have hrest := ih acc2 (fun j hj => hmem j (by simp [hj])) hlen2 hbelow2
        obtain ⟨hrl, hrv, hru, hrb, hrm⟩ := hrest
        have hsum : childSumOver rows hgt cur rid (i :: rest)
            = accSpec rows hgt i + childSumOver rows hgt cur rid rest := by
          unfold childSumOver
          rw [List.filter_cons,
            if_pos (by simp only [decide_eq_true_eq]; exact ⟨h1, h2⟩)]
          simp
        refine ⟨hrl, ?_, ?_, hrb, ?_⟩
        · rw [hrv, hacc2cur, hsum]
          ring
        · intro k hk hkc hkh
          have hki : k ≠ i := fun he => by rw [he] at hkh; omega
          rw [hru k hk hkc hkh, hacc2, getD_set_ne _ _ (fun h => hkc h.symm)]
          exact hpu k hk hki (by omega)
        · intro k hk hkc hkn
          have hk2 : acc2.getD k (-1) = acc.getD k (-1) := by
            rw [hacc2, getD_set_ne _ _ (fun h => hkc h.symm)]
            exact hpm k hk hkn
          rw [hrm k hk hkc (by rw [hk2]; exact hkn), hk2]
      · rw [if_neg h2]
        have hdrop : childSumOver rows hgt cur rid (i :: rest)
            = childSumOver rows hgt cur rid rest := by
          unfold childSumOver
          rw [List.filter_cons,
            if_neg (by simp only [decide_eq_true_eq]; exact fun hcon => h2 hcon.2)]
        rw [hdrop]
        exact ih acc (fun j hj => hmem j (by simp [hj])) hlen hbelow

lemma sim_main (rows : List PRow) (hgt : Nat → Nat)
    (HH : ∀ i j, i < rows.length → j < rows.length →
      rowParent rows j = rowId rows i → hgt j < hgt i) :
    ∀ f, simMain rows hgt f := by
  intro f
  induction f with
  | zero =>
    intro cur acc _ _ hf _ _
    exact absurd hf (Nat.not_lt_zero _)
  | succ f ihf =>
    intro cur acc hcur hlen hf hcv hbelow
    simp only [Machine_populateAccForProcess]
    by_cases hmemo : acc.getD cur (-1) = -1
    · rw [if_neg (fun h => h hmemo)]
      have hcurlen : cur < acc.length := by rw [hlen]; exact hcur
      set acc1 := acc.set cur (rows.getD cur dRow).resident with hacc1
      have hlen1 : acc1.length = rows.length := by
        rw [hacc1, List.length_set, hlen]
      have hbelow1 : ∀ k, k < rows.length → hgt k < hgt cur →
          acc1.getD k (-1) = -1 ∨ acc1.getD k (-1) = accSpec rows hgt k := by
        intro k hk hkb
        have hkc : ¬(cur = k) := fun he => by rw [← he] at hkb; omega
        rw [hacc1, getD_set_ne _ _ hkc]
        exact hbelow k hk hkb
      have hloop := sim_loop rows hgt HH f ihf cur hcur (by omega)
        ((rows.getD cur dRow).id) rfl (List.range rows.length) acc1
        (fun j hj => List.mem_range.mp hj) hlen1 hbelow1
      obtain ⟨hll, hlv, hlu, hlb, hlm⟩ := hloop
      have hacc1cur : acc1.getD cur (-1) = rowRes rows cur := by
        rw [hacc1, getD_set_self _ _ _ hcurlen]
        rfl
      have hfeq : (List.range rows.length).filter
          (fun j => ¬j = cur ∧ (rows.getD j dRow).parent = (rows.getD cur dRow).id)
          = childrenOf rows cur := by
        unfold childrenOf
        apply List.filter_congr
        intro j hj
        have hjn : j < rows.length := List.mem_range.mp hj
        rw [decide_eq_decide]
        constructor
        · rintro ⟨_, hp⟩
          exact hp
        · intro hp
          refine ⟨?_, hp⟩
          intro he
          rw [he] at hp hjn
          exact absurd (HH cur cur hcur hjn hp) (lt_irrefl _)
      have hsum : childSumOver rows hgt cur ((rows.getD cur dRow).id)
          (List.range rows.length)
          = ((childrenOf rows cur).map (accSpec rows hgt)).sum := by
        unfold childSumOver
        rw [hfeq]
      have hval : (accLoopG rows cur ((rows.getD cur dRow).id)
          (fun i ac => Machine_populateAccForProcess rows f i ac)
          (List.range rows.length) acc1).getD cur (-1)
          = accSpec rows hgt cur := by
        rw [hlv, hacc1cur, hsum, ← accSpec_eq rows hgt HH cur hcur]
      refine ⟨by rw [hll, hlen], hval, hval, ?_, hlb, ?_⟩
      · intro k hk hkc hkh
        rw [hlu k hk hkc hkh, hacc1, getD_set_ne _ _ (fun h => hkc h.symm)]
      · intro k hk hkn
        have hkc : k ≠ cur := fun he => by rw [he] at hkn; exact hkn hmemo
        have hk1 : acc1.getD k (-1) = acc.getD k (-1) := by
          rw [hacc1, getD_set_ne _ _ (fun h => hkc h.symm)]
        rw [hlm k hk hkc (by rw [hk1]; exact hkn), hk1]
    · rw [if_pos hmemo]
      have hval := hcv.resolve_left hmemo
      exact ⟨rfl, hval, hval, fun _ _ _ _ => rfl, hbelow, fun _ _ _ => rfl⟩

lemma sim_fold (rows : List PRow) (hgt : Nat → Nat)
    (HH : ∀ i j, i < rows.length → j < rows.length →
      rowParent rows j = rowId rows i → hgt j < hgt i)
    (hB : ∀ i, i < rows.length → hgt i < rows.length) :
    ∀ (idxs : List Nat) (acc : List Int),
      (∀ j ∈ idxs, j < rows.length) → acc.length = rows.length →
      (∀ k, k < rows.length →
        acc.getD k (-1) = -1 ∨ acc.getD k (-1) = accSpec rows hgt k) →
      (idxs.foldl (fun acc i =>
        (Machine_populateAccForProcess rows (rows.length + 1) i acc).1) acc).length
        = rows.length ∧
      (∀ k, k < rows.length →
        (idxs.foldl (fun acc i =>
          (Machine_populateAccForProcess rows (rows.length + 1) i acc).1) acc).getD k (-1)
          = -1 ∨
        (idxs.foldl (fun acc i =>
          (Machine_populateAccForProcess rows (rows.length + 1) i acc).1) acc).getD k (-1)
          = accSpec rows hgt k) ∧
      (∀ j ∈ idxs, (idxs.foldl (fun acc i =>
          (Machine_populateAccForProcess rows (rows.length + 1) i acc).1) acc).getD j (-1)
          = accSpec rows hgt j) ∧
      (∀ k, k < rows.length → acc.getD k (-1) = accSpec rows hgt k →
        (idxs.foldl (fun acc i =>
          (Machine_populateAccForProcess rows (rows.length + 1) i acc).1) acc).getD k (-1)
          = accSpec rows hgt k) := by
  intro idxs
  induction idxs with
  | nil =>
    intro acc _ hlen hinv
    exact ⟨hlen, hinv, by simp, fun k hk h => h⟩
  | cons i rest ih =>
    intro acc hmem hlen hinv
    have hi : i < rows.length := hmem i (by simp)
    have hpost := sim_main rows hgt HH (rows.length + 1) i acc hi hlen
      (by have := hB i hi; omega) (hinv i hi) (fun k hk _ => hinv k hk)
    obtain ⟨hplen, hpval, hpcur, hpu, hpb, hpm⟩ := hpost
    set acc2 := (Machine_populateAccForProcess rows (rows.length + 1) i acc).1
      with hacc2
    have hlen2 : acc2.length = rows.length := by rw [hplen, hlen]
    have hpres : ∀ k, k < rows.length → acc.getD k (-1) = accSpec rows hgt k →
        acc2.getD k (-1) = accSpec rows hgt k := by
      intro k hk hks
      by_cases hki : k = i
      · subst hki
        exact hpcur
      · by_cases hkb : hgt k < hgt i
        · rcases hpb k hk hkb with h | h
          · by_cases hs : accSpec rows hgt k = -1
            · rw [h, hs]
            · exact (hpm k hk (by rw [hks]; exact hs)).trans hks
          · exact h
        · exact (hpu k hk hki (by omega)).trans hks
    have hinv2 : ∀ k, k < rows.length →
        acc2.getD k (-1) = -1 ∨ acc2.getD k (-1) = accSpec rows hgt k := by
      intro k hk
      by_cases hki : k = i
      · subst hki
        right
        exact hpcur
      · by_cases hkb : hgt k < hgt i
        · exact hpb k hk hkb
        · rw [hpu k hk hki (by omega)]
          exact hinv k hk
    have hrest := ih acc2 (fun j hj => hmem j (by simp [hj])) hlen2 hinv2
    obtain ⟨hrl, hrinv, hrall, hrpres⟩ := hrest
    simp only [List.foldl_cons]
    refine ⟨hrl, hrinv, ?_, ?_⟩
    · intro j hj
      rcases List.mem_cons.mp hj with he | he
      · rw [he]
        exact hrpres i hi hpcur
      · exact hrall j he
    · intro k hk hks
      exact hrpres k hk (hpres k hk hks)

lemma accumulatedValues_spec (rows : List PRow) (hgt : Nat → Nat)
    (HH : ∀ i j, i < rows.length → j < rows.length →
      rowParent rows j = rowId rows i → hgt j < hgt i)
    (hB : ∀ i, i < rows.length → hgt i < rows.length) :
    ∀ k, k < rows.length →
      (accumulatedValues rows).getD k (-1) = accSpec rows hgt k := by
  intro k hk
  have h := sim_fold rows hgt HH hB (List.range rows.length)
    (List.replicate rows.length (-1))
    (fun j hj => List.mem_range.mp hj) (List.length_replicate _ _)
    (fun j hj => Or.inl (getD_replicate_neg _ j hj))
  exact h.2.2.1 k (List.mem_range.mpr hk)

lemma listRange_filter_sum (n : Nat) (q : Nat → Bool) (f : Nat → Int) :
    (((List.range n).filter q).map f).sum
      = ∑ j ∈ (Finset.range n).filter (fun j => q j = true), f j := by
  induction n with
  | zero => simp
  | succ n ihn =>
    rw [List.range_succ, List.filter_append, List.map_append, List.sum_append, ihn,
      Finset.range_succ, Finset.filter_insert]
    by_cases hq : q n = true
    · rw [if_pos hq, Finset.sum_insert (by simp)]
      simp only [List.filter_cons, hq, if_true, List.filter_nil, List.map_cons,
        List.map_nil, List.sum_cons, List.sum_nil]
      ring
    · rw [if_neg hq]
      simp only [List.filter_cons, hq, if_false, List.filter_nil, List.map_nil,
        List.sum_nil, Bool.false_eq_true]
      ring

lemma rowId_inj (rows : List PRow) (hids : (rows.map PRow.id).Nodup) :
    ∀ i1 i2, i1 < rows.length → i2 < rows.length →
      rowId rows i1 = rowId rows i2 → i1 = i2 := by
  intro i1 i2 h1 h2 he
  have h1b : i1 < (rows.map PRow.id).length := by simpa using h1
  have h2b : i2 < (rows.map PRow.id).length := by simpa using h2
  have hg : (rows.map PRow.id)[i1] = (rows.map PRow.id)[i2] := by
    rw [List.getElem_map, List.getElem_map]
    have e1 : rowId rows i1 = rows[i1].id := by
      unfold rowId
      rw [List.getD_eq_getElem rows dRow h1]
    have e2 : rowId rows i2 = rows[i2].id := by
      unfold rowId
      rw [List.getD_eq_getElem rows dRow h2]
    rw [← e1, ← e2]
    exact he
  exact (List.Nodup.getElem_inj_iff hids).mp hg

lemma isRootB_iff (rows : List PRow) (j : Nat) :
    isRootB rows j = true
      ↔ ∀ i, i < rows.length → rowId rows i ≠ rowParent rows j := by
  unfold isRootB
  rw [List.all_eq_true]
  constructor
  · intro h i hi
    exact bne_iff_ne.mp (h i (List.mem_range.mpr hi))
  · intro h i hi
    exact bne_iff_ne.mpr (h i (List.mem_range.mp hi))

lemma acc_conservation (rows : List PRow) (A : Nat → Int)
    (hloc : ∀ i, i < rows.length →
      A i = rowRes rows i + ∑ j ∈ (Finset.range rows.length).filter
        (fun j => rowParent rows j = rowId rows i), A j)
    (hinj : ∀ i1 i2, i1 < rows.length → i2 < rows.length →
      rowId rows i1 = rowId rows i2 → i1 = i2) :
    ∑ j ∈ (Finset.range rows.length).filter (fun j => isRootB rows j = true), A j
      = ∑ i ∈ Finset.range rows.length, rowRes rows i := by
  have hS : ∑ i ∈ Finset.range rows.length, A i
      = ∑ i ∈ Finset.range rows.length, rowRes rows i
        + ∑ i ∈ Finset.range rows.length, ∑ j ∈ (Finset.range rows.length).filter
            (fun j => rowParent rows j = rowId rows i), A j := by
    rw [← Finset.sum_add_distrib]
    apply Finset.sum_congr rfl
    intro i hi
    exact hloc i (Finset.mem_range.mp hi)
  have hT : ∑ i ∈ Finset.range rows.length, ∑ j ∈ (Finset.range rows.length).filter
        (fun j => rowParent rows j = rowId rows i), A j
      = ∑ j ∈ Finset.range rows.length,
          (if isRootB rows j = true then 0 else A j) := by
    have h1 : ∀ i ∈ Finset.range rows.length,
        ∑ j ∈ (Finset.range rows.length).filter
          (fun j => rowParent rows j = rowId rows i), A j
        = ∑ j ∈ Finset.range rows.length,
            (if rowParent rows j = rowId rows i then A j else 0) :=
      fun i _ => Finset.sum_filter _ _
    rw [Finset.sum_congr rfl h1, Finset.sum_comm]
    apply Finset.sum_congr rfl
    intro j hj
    by_cases hroot : isRootB rows j = true
    · rw [if_pos hroot]
      apply Finset.sum_eq_zero
      intro i hi
      rw [if_neg]
      exact fun hp => (isRootB_iff rows j).mp hroot i (Finset.mem_range.mp hi) hp.symm
    · rw [if_neg hroot]
      have hex : ∃ i0, i0 < rows.length ∧ rowId rows i0 = rowParent rows j := by
        by_contra hno
        push_neg at hno
        apply hroot
        rw [isRootB_iff]
        intro i hi
        exact hno i hi
      obtain ⟨i0, hi0, he0⟩ := hex
      have hsing : (Finset.range rows.length).filter
          (fun i => rowParent rows j = rowId rows i) = {i0} := by
        rw [Finset.eq_singleton_iff_unique_mem]
        constructor
        · simp only [Finset.mem_filter, Finset.mem_range]
          exact ⟨hi0, he0.symm⟩
        · intro x hx
          simp only [Finset.mem_filter, Finset.mem_range] at hx
          exact hinj x i0 hx.1 hi0 (hx.2.symm.trans he0.symm)
      calc ∑ i ∈ Finset.range rows.length,
            (if rowParent rows j = rowId rows i then A j else 0)
          = ∑ i ∈ (Finset.range rows.length).filter
              (fun i => rowParent rows j = rowId rows i), A j :=
            (Finset.sum_filter _ _).symm
        _ = ∑ i ∈ ({i0} : Finset Nat), A j := by rw [hsing]
        _ = A j := by simp
  have hsplit := Finset.sum_filter_add_sum_filter_not (Finset.range rows.length)
    (fun j => isRootB rows j = true) A
  have hnotroot : ∑ j ∈ (Finset.range rows.length).filter
        (fun j => ¬isRootB rows j = true), A j
      = ∑ j ∈ Finset.range rows.length,
          (if isRootB rows j = true then 0 else A j) := by
    rw [Finset.sum_filter]
    apply Finset.sum_congr rfl
    intro j _
    by_cases h : isRootB rows j = true <;> simp [h]
  rw [hnotroot] at hsplit
  rw [hT] at hS
  linarith

/-- C1: on every row set whose parent graph is acyclic — acyclicity
exhibited by a height function `hgt` that strictly decreases from parent to
child and is bounded by the number of rows — with distinct row ids, every
row's accumulated value equals its raw value plus the sum of the
accumulated values of the rows whose `parent` equals its `id`, and the sum
of the accumulated values over the forest roots (rows whose `parent`,
dangling or sentinel, matches no row's `id`) equals the sum of raw values
over all rows. -/
theorem claim1_acyclic_accumulation (rows : List PRow) (hgt : Nat → Nat)
    (hacy : ∀ i, i < rows.length → ∀ j, j < rows.length →
      rowParent rows j = rowId rows i → hgt j < hgt i)
    (hbound : ∀ i, i < rows.length → hgt i < rows.length)
    (hids : (rows.map PRow.id).Nodup) :
    (∀ i, i < rows.length →
      (accumulatedValues rows).getD i (-1)
        = rowRes rows i + ∑ j ∈ (Finset.range rows.length).filter
            (fun j => rowParent rows j = rowId rows i),
            (accumulatedValues rows).getD j (-1)) ∧
    ∑ j ∈ (Finset.range rows.length).filter (fun j => isRootB rows j = true),
        (accumulatedValues rows).getD j (-1)
      = ∑ i ∈ Finset.range rows.length, rowRes rows i := by
  have HH : ∀ i j, i < rows.length → j < rows.length →
      rowParent rows j = rowId rows i → hgt j < hgt i :=
    fun i j hi hj hp => hacy i hi j hj hp
  have hall := accumulatedValues_spec rows hgt HH hbound
  have hloc : ∀ i, i < rows.length →
      (accumulatedValues rows).getD i (-1)
        = rowRes rows i + ∑ j ∈ (Finset.range rows.length).filter
            (fun j => rowParent rows j = rowId rows i),
            (accumulatedValues rows).getD j (-1) := by
    intro i hi
    rw [hall i hi, accSpec_eq rows hgt HH i hi]
    congr 1
    have hlist : ((childrenOf rows i).map (accSpec rows hgt)).sum
        = ((childrenOf rows i).map
            (fun j => (accumulatedValues rows).getD j (-1))).sum := by
      apply congrArg
      apply List.map_congr_left
      intro k hk
      obtain ⟨hk1, _⟩ := (mem_childrenOf rows i k).mp hk
      exact (hall k hk1).symm
    rw [hlist]
    unfold childrenOf
    rw [listRange_filter_sum]
    apply Finset.sum_congr
    · apply Finset.filter_congr
      intro j _
      simp only [decide_eq_true_eq]
    · intro x _
      rfl
  exact ⟨hloc, acc_conservation rows _ hloc (rowId_inj rows hids)⟩

theorem claim1_witness :
    (∀ i, i < test4.length →
      (accumulatedValues test4).getD i (-1)
        = rowRes test4 i + ∑ j ∈ (Finset.range test4.length).filter
            (fun j => rowParent test4 j = rowId test4 i),
            (accumulatedValues test4).getD j (-1)) ∧
    ∑ j ∈ (Finset.range test4.length).filter (fun j => isRootB test4 j = true),
        (accumulatedValues test4).getD j (-1)
      = ∑ i ∈ Finset.range test4.length, rowRes test4 i :=
  claim1_acyclic_accumulation test4 hgtTest4 (by decide) (by decide) (by decide)

theorem claim2_witness :
    (∀ f, (mutualCycleRows 5 7).length + 1 ≤ f →
      accumulatedValuesFuel (mutualCycleRows 5 7) f
        = accumulatedValues (mutualCycleRows 5 7)) ∧
    (accumulatedValues (mutualCycleRows 5 7)).length = (mutualCycleRows 5 7).length ∧
    (∀ i, i < (mutualCycleRows 5 7).length →
      0 ≤ (accumulatedValues (mutualCycleRows 5 7)).getD i (-1)) :=
  claim2_termination_nonneg (mutualCycleRows 5 7) (by decide)
